import Mathlib

/-!
Verification of the workout-tracker repository's aggregation, validation,
reconciliation and cache logic, shallowly embedded in Lean 4.

Conventions used throughout this development:
* Calendar dates are modelled as natural numbers (day indices); comparison of
  ISO `YYYY-MM-DD` strings in the source (`localeCompare`, `>=` filters)
  coincides with numeric comparison of day indices.
* JavaScript numbers holding integral values are modelled as `Int`/`Nat`;
  `NaN` outcomes of coercions are modelled with `Option`.
* `Math.round` (round half towards positive infinity) is modelled on `ℚ`.
-/

/-- A workout record, as stored by the client and the backend
(`workouts` table of the setup SQL and the objects built in the client code). -/
structure Workout where
  exercise : String
  sets : Nat
  reps : Nat
  weight : Nat
  workoutDate : Nat
  createdAt : Nat
  userId : Option String
deriving DecidableEq, Repr

/-- Training volume of one record: `sets * reps * weight`
(computed identically at every aggregation site in the source). -/
def vol (w : Workout) : Nat := w.sets * w.reps * w.weight

/-- Model of JavaScript `Math.round` on (finite, nonnegative) values:
round half away from zero, i.e. `⌊q + 1/2⌋` for `q ≥ 0`. -/
def jsRound (q : ℚ) : ℤ := ⌊q + 1 / 2⌋

/-- Average weight of a list of weights, from `updateStats` in `src/script.js`
(and the identical computation in the analytics endpoint):
`todayWorkouts.length > 0 ? Math.round(totalWeight / todayWorkouts.length) : 0`. -/
def averageWeight (ws : List Nat) : Nat :=
  if ws.length = 0 then 0
  else (jsRound ((ws.sum : ℚ) / (ws.length : ℚ))).toNat

/-- Epley one-rep-max estimate from `calculateOneRM` in `src/script.js` and
`src/frontend/config.js`: `Math.round(weight * (1 + reps / 30))`. -/
def calculateOneRM (weight reps : Nat) : Nat :=
  (jsRound ((weight : ℚ) * (1 + (reps : ℚ) / 30))).toNat

theorem jsRound_nonneg {q : ℚ} (h : 0 ≤ q) : 0 ≤ jsRound q := by
  unfold jsRound
  positivity

theorem jsRound_dist (q : ℚ) : |(jsRound q : ℚ) - q| ≤ 1 / 2 := by
  unfold jsRound
  have h1 : (⌊q + 1 / 2⌋ : ℚ) ≤ q + 1 / 2 := Int.floor_le _
  have h2 : q + 1 / 2 - 1 < (⌊q + 1 / 2⌋ : ℚ) := Int.sub_one_lt_floor _
  rw [abs_le]
  constructor <;> linarith

theorem jsRound_intCast (n : ℤ) : jsRound (n : ℚ) = n := by
  unfold jsRound
  rw [Int.floor_eq_iff]
  constructor <;> [skip; push_cast] <;> linarith

theorem jsRound_natCast (n : ℕ) : jsRound (n : ℚ) = n := by
  have h : ((n : ℚ)) = ((n : ℤ) : ℚ) := by push_cast; ring
  rw [h, jsRound_intCast]

/-- Claim C7 — `averageWeight` of the empty subset is `0`, of a singleton `[w]`
is `w`, and in general is the arithmetic mean of the weights rounded to the
nearest integer (distance from the exact mean at most `1/2`). -/
theorem averageWeight_spec :
    averageWeight [] = 0 ∧
    (∀ w : Nat, averageWeight [w] = w) ∧
    (∀ ws : List Nat, ws ≠ [] →
      |(averageWeight ws : ℚ) - (ws.sum : ℚ) / (ws.length : ℚ)| ≤ 1 / 2) := by
  refine ⟨rfl, ?_, ?_⟩
  · intro w
    simp only [averageWeight, List.sum_cons, List.sum_nil, List.length_cons,
      List.length_nil]
    norm_num
    rw [jsRound_natCast]
    rfl
  · intro ws hne
    have hlen : 0 < ws.length := List.length_pos.mpr hne
    have hlen' : ws.length ≠ 0 := Nat.pos_iff_ne_zero.mp hlen
    have hmean : (0 : ℚ) ≤ (ws.sum : ℚ) / (ws.length : ℚ) := by
      apply div_nonneg <;> positivity
    have hr := jsRound_dist ((ws.sum : ℚ) / (ws.length : ℚ))
    have hnn : 0 ≤ jsRound ((ws.sum : ℚ) / (ws.length : ℚ)) :=
      jsRound_nonneg hmean
    have hc : (((jsRound ((ws.sum : ℚ) / (ws.length : ℚ))).toNat : ℚ))
        = ((jsRound ((ws.sum : ℚ) / (ws.length : ℚ)) : ℤ) : ℚ) := by
      exact_mod_cast congrArg (fun z : ℤ => (z : ℚ)) (Int.toNat_of_nonneg hnn)
    simp only [averageWeight, hlen', if_false]
    rw [hc]
    exact hr

/-- Witness for claim C7: evaluating the theorem at the concrete subset
`[3, 4]`, whose mean is `7/2`. -/
theorem averageWeight_spec_witness :
    |(averageWeight [3, 4] : ℚ) - ([3, 4] : List Nat).sum / (([3, 4] : List Nat).length : ℚ)| ≤ 1 / 2 :=
  averageWeight_spec.2.2 [3, 4] (by decide)

/-- Claim C8 — for every record with positive weight and reps, the one-rep-max
estimate is the Epley value `weight * (1 + reps / 30)` rounded to the nearest
integer, and in particular `calculateOneRM 135 10 = 180`. -/
theorem calculateOneRM_spec :
    (∀ weight reps : Nat, 0 < weight → 0 < reps →
      |(calculateOneRM weight reps : ℚ) - (weight : ℚ) * (1 + (reps : ℚ) / 30)| ≤ 1 / 2) ∧
    calculateOneRM 135 10 = 180 := by
  constructor
  · intro w r _ _
    have hq : (0 : ℚ) ≤ (w : ℚ) * (1 + (r : ℚ) / 30) := by positivity
    have hr := jsRound_dist ((w : ℚ) * (1 + (r : ℚ) / 30))
    have hnn := jsRound_nonneg hq
    have hc : (((jsRound ((w : ℚ) * (1 + (r : ℚ) / 30))).toNat : ℚ))
        = ((jsRound ((w : ℚ) * (1 + (r : ℚ) / 30)) : ℤ) : ℚ) := by
      exact_mod_cast congrArg (fun z : ℤ => (z : ℚ)) (Int.toNat_of_nonneg hnn)
    simp only [calculateOneRM]
    rw [hc]
    exact hr
  · show (jsRound ((135 : ℚ) * (1 + (10 : ℚ) / 30))).toNat = 180
    have h : (135 : ℚ) * (1 + (10 : ℚ) / 30) = ((180 : ℕ) : ℚ) := by norm_num
    rw [h, jsRound_natCast]
    rfl

/-- Witness for claim C8: the Epley estimate at `weight = 135`, `reps = 10`
is within `1/2` of the exact value `180`. -/
theorem calculateOneRM_spec_witness :
    |(calculateOneRM 135 10 : ℚ) - (135 : ℚ) * (1 + (10 : ℚ) / 30)| ≤ 1 / 2 :=
  calculateOneRM_spec.1 135 10 (by decide) (by decide)

/-!
Association-list model of the JavaScript plain objects used as dictionaries by
the analytics endpoint and the chart code (string keys preserve insertion
order, which is what `Object.entries` later observes).
-/

/-- Keys of an association list, in insertion order. -/
def keysOf {α : Type} (acc : List (α × Nat)) : List α := acc.map Prod.fst

/-- Property read with default `0` (the accumulation sites initialise absent
keys to `0` before adding, so a read of an absent key contributes `0`). -/
def getVal {α : Type} [DecidableEq α] : List (α × Nat) → α → Nat
  | [], _ => 0
  | p :: rest, e => if p.1 = e then p.2 else getVal rest e

/-- Upsert: `if (!obj[k]) obj[k] = 0; obj[k] += v` on a JavaScript object —
adds `v` to an existing binding or appends a fresh one at the end. -/
def addToKey {α : Type} [DecidableEq α] : List (α × Nat) → α → Nat → List (α × Nat)
  | [], k, v => [(k, v)]
  | p :: rest, k, v =>
      if p.1 = k then (p.1, p.2 + v) :: rest else p :: addToKey rest k v

/-- One accumulation loop of the analytics endpoint: fold a collection into a
dictionary keyed by `f`, adding `g` of each element. -/
def accumBy {α β : Type} [DecidableEq α] (f : β → α) (g : β → Nat) (l : List β) :
    List (α × Nat) :=
  l.foldl (fun acc x => addToKey acc (f x) (g x)) []

/-- Sum of `g` over the elements of `l` whose key `f` equals `e`. -/
def sumOn {α β : Type} [DecidableEq α] (f : β → α) (g : β → Nat) (l : List β) (e : α) : Nat :=
  (l.map (fun x => if f x = e then g x else 0)).sum

theorem getVal_cons_eq {α : Type} [DecidableEq α] {p : α × Nat} {rest : List (α × Nat)}
    {e : α} (h : p.1 = e) : getVal (p :: rest) e = p.2 := by
  simp [getVal, h]

theorem getVal_cons_ne {α : Type} [DecidableEq α] {p : α × Nat} {rest : List (α × Nat)}
    {e : α} (h : ¬ p.1 = e) : getVal (p :: rest) e = getVal rest e := by
  simp [getVal, h]

theorem addToKey_cons_eq {α : Type} [DecidableEq α] {p : α × Nat} {rest : List (α × Nat)}
    {k : α} {v : Nat} (h : p.1 = k) :
    addToKey (p :: rest) k v = (p.1, p.2 + v) :: rest := by
  simp [addToKey, h]

theorem addToKey_cons_ne {α : Type} [DecidableEq α] {p : α × Nat} {rest : List (α × Nat)}
    {k : α} {v : Nat} (h : ¬ p.1 = k) :
    addToKey (p :: rest) k v = p :: addToKey rest k v := by
  simp [addToKey, h]

theorem getVal_addToKey {α : Type} [DecidableEq α] (acc : List (α × Nat)) (k : α)
    (v : Nat) (e : α) :
    getVal (addToKey acc k v) e = getVal acc e + (if k = e then v else 0) := by
  induction acc with
  | nil =>
    by_cases h : k = e <;> simp [addToKey, getVal, h, eq_comm]
  | cons p rest ih =>
    by_cases hpk : p.1 = k
    · rw [addToKey_cons_eq hpk]
      by_cases hpe : p.1 = e
      · have hke : k = e := by rw [← hpk, hpe]
        rw [getVal_cons_eq hpe, getVal_cons_eq (p := (p.1, p.2 + v)) hpe, if_pos hke]
      · have hke : ¬ k = e := fun h => hpe (by rw [hpk, h])
        rw [getVal_cons_ne hpe, getVal_cons_ne (p := (p.1, p.2 + v)) hpe, if_neg hke,
          Nat.add_zero]
    · rw [addToKey_cons_ne hpk]
      by_cases hpe : p.1 = e
      · have hke : ¬ k = e := fun h => hpk (by rw [hpe, h])
        rw [getVal_cons_eq hpe, getVal_cons_eq hpe, if_neg hke, Nat.add_zero]
      · rw [getVal_cons_ne hpe, getVal_cons_ne hpe, ih]

theorem mem_keys_addToKey {α : Type} [DecidableEq α] (acc : List (α × Nat)) (k : α)
    (v : Nat) (e : α) :
    e ∈ keysOf (addToKey acc k v) ↔ e ∈ keysOf acc ∨ e = k := by
  induction acc with
  | nil => simp [addToKey, keysOf, eq_comm]
  | cons p rest ih =>
    by_cases hpk : p.1 = k
    · rw [addToKey_cons_eq hpk]
      simp only [keysOf, List.map_cons, List.mem_cons, hpk]
      tauto
    · rw [addToKey_cons_ne hpk]
      simp only [keysOf, List.map_cons, List.mem_cons]
      simp only [keysOf] at ih
      rw [ih]
      tauto

theorem nodup_keys_addToKey {α : Type} [DecidableEq α] (acc : List (α × Nat)) (k : α)
    (v : Nat) (h : (keysOf acc).Nodup) : (keysOf (addToKey acc k v)).Nodup := by
  induction acc with
  | nil => simp [addToKey, keysOf]
  | cons p rest ih =>
    simp only [keysOf, List.map_cons, List.nodup_cons] at h
    by_cases hpk : p.1 = k
    · rw [addToKey_cons_eq hpk]
      simp only [keysOf, List.map_cons, List.nodup_cons]
      exact ⟨h.1, h.2⟩
    · rw [addToKey_cons_ne hpk]
      simp only [keysOf, List.map_cons, List.nodup_cons]
      refine ⟨?_, ih h.2⟩
      intro hmem
      rcases (mem_keys_addToKey rest k v p.1).mp hmem with hin | heq
      · exact h.1 hin
      · exact hpk heq

theorem getVal_accumBy_aux {α β : Type} [DecidableEq α] (f : β → α) (g : β → Nat)
    (l : List β) (acc : List (α × Nat)) (e : α) :
    getVal (l.foldl (fun a x => addToKey a (f x) (g x)) acc) e
      = getVal acc e + sumOn f g l e := by
  induction l generalizing acc with
  | nil => simp [sumOn]
  | cons x xs ih =>
    simp only [List.foldl_cons, ih, getVal_addToKey, sumOn, List.map_cons, List.sum_cons]
    by_cases h : f x = e
    · simp [h]
      omega
    · simp [h]

theorem getVal_accumBy {α β : Type} [DecidableEq α] (f : β → α) (g : β → Nat)
    (l : List β) (e : α) : getVal (accumBy f g l) e = sumOn f g l e := by
  simpa [accumBy, getVal] using getVal_accumBy_aux f g l [] e

theorem mem_keys_accumBy_aux {α β : Type} [DecidableEq α] (f : β → α) (g : β → Nat)
    (l : List β) (acc : List (α × Nat)) (e : α) :
    e ∈ keysOf (l.foldl (fun a x => addToKey a (f x) (g x)) acc)
      ↔ e ∈ keysOf acc ∨ e ∈ l.map f := by
  induction l generalizing acc with
  | nil => simp
  | cons x xs ih =>
    simp only [List.foldl_cons, ih, mem_keys_addToKey, List.map_cons, List.mem_cons]
    tauto

theorem mem_keys_accumBy {α β : Type} [DecidableEq α] (f : β → α) (g : β → Nat)
    (l : List β) (e : α) : e ∈ keysOf (accumBy f g l) ↔ e ∈ l.map f := by
  simpa [accumBy, keysOf] using mem_keys_accumBy_aux f g l [] e

theorem nodup_keys_accumBy_aux {α β : Type} [DecidableEq α] (f : β → α) (g : β → Nat)
    (l : List β) (acc : List (α × Nat)) (h : (keysOf acc).Nodup) :
    (keysOf (l.foldl (fun a x => addToKey a (f x) (g x)) acc)).Nodup := by
  induction l generalizing acc with
  | nil => exact h
  | cons x xs ih =>
    simp only [List.foldl_cons]
    exact ih _ (nodup_keys_addToKey acc (f x) (g x) h)

theorem nodup_keys_accumBy {α β : Type} [DecidableEq α] (f : β → α) (g : β → Nat)
    (l : List β) : (keysOf (accumBy f g l)).Nodup :=
  nodup_keys_accumBy_aux f g l [] (by simp [keysOf])

theorem mem_iff_getVal {α : Type} [DecidableEq α] (k : α) (v : Nat)
    (acc : List (α × Nat)) :
    (keysOf acc).Nodup → ((k, v) ∈ acc ↔ k ∈ keysOf acc ∧ getVal acc k = v) := by
  induction acc with
  | nil => intro _; simp [keysOf]
  | cons p rest ih =>
    intro hnd
    simp only [keysOf, List.map_cons, List.nodup_cons] at hnd
    by_cases hpk : p.1 = k
    · constructor
      · intro hm
        rcases List.mem_cons.mp hm with h | h
        · refine ⟨?_, ?_⟩
          · simp only [keysOf, List.map_cons, List.mem_cons]
            exact Or.inl hpk.symm
          · rw [getVal_cons_eq hpk, ← h]
        · exact absurd (List.mem_map_of_mem Prod.fst h) (hpk ▸ hnd.1)
      · rintro ⟨hkm, hgv⟩
        rw [getVal_cons_eq hpk] at hgv
        apply List.mem_cons.mpr
        left
        rw [← hgv, ← hpk]
    · constructor
      · intro hm
        rcases List.mem_cons.mp hm with h | h
        · exact absurd (congrArg Prod.fst h).symm hpk
        · have hr := (ih hnd.2).mp h
          refine ⟨?_, ?_⟩
          · simp only [keysOf, List.map_cons, List.mem_cons]
            exact Or.inr hr.1
          · rw [getVal_cons_ne hpk]
            exact hr.2
      · rintro ⟨hkm, hgv⟩
        simp only [keysOf, List.map_cons, List.mem_cons] at hkm
        rcases hkm with h | h
        · exact absurd h.symm hpk
        · rw [getVal_cons_ne hpk] at hgv
          exact List.mem_cons.mpr (Or.inr ((ih hnd.2).mpr ⟨h, hgv⟩))

/-!
Stable sorting. ECMAScript `Array.prototype.sort` is required to be stable, so
a comparator sort is modelled by stable insertion sort: each element is placed
after every earlier element it does not strictly precede.
-/

/-- Insert `a` into `acc`, placing it before the first element `b` it strictly
precedes (`lt a b = true`) and after all others; on a sorted `acc` this is the
position a stable comparator sort assigns to a later-arriving element. -/
def insBefore {α : Type} (lt : α → α → Bool) : List α → α → List α
  | [], a => [a]
  | b :: bs, a => if lt a b then a :: b :: bs else b :: insBefore lt bs a

/-- Stable comparator sort (model of JavaScript `.sort(cmp)` with a consistent
comparator): left-to-right insertion with `insBefore`. -/
def stableSortBy {α : Type} (lt : α → α → Bool) (l : List α) : List α :=
  l.foldl (insBefore lt) []

theorem insBefore_eq_takeWhile_dropWhile {α : Type} (lt : α → α → Bool)
    (acc : List α) (a : α) :
    insBefore lt acc a
      = acc.takeWhile (fun b => !lt a b) ++ a :: acc.dropWhile (fun b => !lt a b) := by
  induction acc with
  | nil => simp [insBefore]
  | cons b bs ih =>
    by_cases h : lt a b
    · simp [insBefore, h, List.takeWhile_cons, List.dropWhile_cons]
    · simp [insBefore, h, List.takeWhile_cons, List.dropWhile_cons, ih]

theorem insBefore_perm {α : Type} (lt : α → α → Bool) (acc : List α) (a : α) :
    (insBefore lt acc a).Perm (a :: acc) := by
  rw [insBefore_eq_takeWhile_dropWhile]
  have h : (acc.takeWhile (fun b => !lt a b) ++ a :: acc.dropWhile (fun b => !lt a b)).Perm
      (a :: (acc.takeWhile (fun b => !lt a b) ++ acc.dropWhile (fun b => !lt a b))) :=
    List.perm_middle
  rwa [List.takeWhile_append_dropWhile] at h

theorem mem_insBefore {α : Type} (lt : α → α → Bool) (acc : List α) (a x : α) :
    x ∈ insBefore lt acc a ↔ x = a ∨ x ∈ acc := by
  rw [(insBefore_perm lt acc a).mem_iff, List.mem_cons]

theorem stableSortBy_perm_aux {α : Type} (lt : α → α → Bool) (l acc : List α) :
    (l.foldl (insBefore lt) acc).Perm (acc ++ l) := by
  induction l generalizing acc with
  | nil => simp
  | cons x xs ih =>
    simp only [List.foldl_cons]
    have h0 : (xs.foldl (insBefore lt) (insBefore lt acc x)).Perm
        (insBefore lt acc x ++ xs) := ih _
    have h1 : (insBefore lt acc x ++ xs).Perm ((x :: acc) ++ xs) :=
      (insBefore_perm lt acc x).append_right xs
    have h2 : ((x :: acc) ++ xs).Perm (acc ++ x :: xs) := List.perm_middle.symm
    exact (h0.trans h1).trans h2

theorem stableSortBy_perm {α : Type} (lt : α → α → Bool) (l : List α) :
    (stableSortBy lt l).Perm l := by
  simpa using stableSortBy_perm_aux lt l []

theorem insBefore_pairwise {α : Type} (lt : α → α → Bool)
    (hasym : ∀ a b, lt a b = true → lt b a = false)
    (hntrans : ∀ a b c, lt b a = false → lt c b = false → lt c a = false)
    (acc : List α) (a : α) (h : acc.Pairwise (fun x y => lt y x = false)) :
    (insBefore lt acc a).Pairwise (fun x y => lt y x = false) := by
  induction acc with
  | nil => simp [insBefore]
  | cons b bs ih =>
    rcases List.pairwise_cons.mp h with ⟨hb, hbs⟩
    by_cases hab : lt a b
    · simp only [insBefore, if_pos hab]
      refine List.pairwise_cons.mpr ⟨?_, h⟩
      intro x hx
      rcases List.mem_cons.mp hx with hxb | hxbs
      · subst hxb; exact hasym a x hab
      · exact hntrans a b x (hasym a b hab) (hb x hxbs)
    · simp only [insBefore, if_neg hab]
      refine List.pairwise_cons.mpr ⟨?_, ih hbs⟩
      intro x hx
      rcases (mem_insBefore lt bs a x).mp hx with hxa | hxbs
      · subst hxa; exact Bool.eq_false_iff.mpr (fun hc => hab hc)
      · exact hb x hxbs

theorem stableSortBy_pairwise_aux {α : Type} (lt : α → α → Bool)
    (hasym : ∀ a b, lt a b = true → lt b a = false)
    (hntrans : ∀ a b c, lt b a = false → lt c b = false → lt c a = false)
    (l acc : List α) (h : acc.Pairwise (fun x y => lt y x = false)) :
    (l.foldl (insBefore lt) acc).Pairwise (fun x y => lt y x = false) := by
  induction l generalizing acc with
  | nil => exact h
  | cons x xs ih =>
    simp only [List.foldl_cons]
    exact ih _ (insBefore_pairwise lt hasym hntrans acc x h)

theorem stableSortBy_pairwise {α : Type} (lt : α → α → Bool)
    (hasym : ∀ a b, lt a b = true → lt b a = false)
    (hntrans : ∀ a b c, lt b a = false → lt c b = false → lt c a = false)
    (l : List α) :
    (stableSortBy lt l).Pairwise (fun x y => lt y x = false) :=
  stableSortBy_pairwise_aux lt hasym hntrans l [] (by simp)

/-- Comparator of the exercise ranking, `(a, b) => b.count - a.count`:
`p` strictly precedes `q` when `p`'s count is strictly larger. -/
def ltCount {α : Type} (p q : α × Nat) : Bool := decide (q.2 < p.2)

theorem ltCount_asym {α : Type} (a b : α × Nat) :
    ltCount a b = true → ltCount b a = false := by
  simp only [ltCount, decide_eq_true_eq, decide_eq_false_iff_not]
  omega

theorem ltCount_ntrans {α : Type} (a b c : α × Nat) :
    ltCount b a = false → ltCount c b = false → ltCount c a = false := by
  simp only [ltCount, decide_eq_false_iff_not]
  omega

theorem sortByCount_pairwise {α : Type} (l : List (α × Nat)) :
    (stableSortBy ltCount l).Pairwise (fun x y => y.2 ≤ x.2) := by
  have h := stableSortBy_pairwise ltCount ltCount_asym ltCount_ntrans l
  refine h.imp ?_
  intro a b hab
  simp only [ltCount, decide_eq_false_iff_not] at hab
  omega

theorem filter_insBefore_count {α : Type} (acc : List (α × Nat)) (p : α × Nat) (c : Nat)
    (h : acc.Pairwise (fun x y => y.2 ≤ x.2)) :
    (insBefore ltCount acc p).filter (fun x => x.2 == c)
      = acc.filter (fun x => x.2 == c) ++ (if p.2 == c then [p] else []) := by
  induction acc with
  | nil =>
    by_cases hc : p.2 = c <;> simp [insBefore, hc]
  | cons b bs ih =>
    rcases List.pairwise_cons.mp h with ⟨hb, hbs⟩
    by_cases hlt : ltCount p b
    · have hblt : b.2 < p.2 := by simpa [ltCount] using hlt
      simp only [insBefore, if_pos hlt]
      by_cases hc : p.2 = c
      · have hnil : (b :: bs).filter (fun x => x.2 == c) = [] := by
          rw [List.filter_eq_nil_iff]
          intro x hx
          rcases List.mem_cons.mp hx with hxb | hxbs
          · subst hxb
            simp only [beq_iff_eq]
            omega
          · have := hb x hxbs
            simp only [beq_iff_eq]
            omega
        rw [List.filter_cons_of_pos (by simp [hc]), hnil]
        simp [hc]
      · rw [List.filter_cons_of_neg (by simp [hc])]
        simp [hc]
    · have hble : p.2 ≤ b.2 := by
        have := Bool.eq_false_iff.mpr hlt
        simp only [ltCount, decide_eq_false_iff_not] at this
        omega
      simp only [insBefore, if_neg hlt]
      by_cases hbc : b.2 = c
      · rw [List.filter_cons_of_pos (by simp [hbc]), List.filter_cons_of_pos (by simp [hbc]),
          ih hbs, List.cons_append]
      · rw [List.filter_cons_of_neg (by simp [hbc]), List.filter_cons_of_neg (by simp [hbc]),
          ih hbs]

theorem filter_sortByCount_aux {α : Type} (c : Nat) (l acc : List (α × Nat))
    (h : acc.Pairwise (fun x y => y.2 ≤ x.2)) :
    (l.foldl (insBefore ltCount) acc).filter (fun x => x.2 == c)
      = acc.filter (fun x => x.2 == c) ++ l.filter (fun x => x.2 == c) := by
  induction l generalizing acc with
  | nil => simp
  | cons p ps ih =>
    simp only [List.foldl_cons]
    have hins : (insBefore ltCount acc p).Pairwise (fun x y : α × Nat => y.2 ≤ x.2) := by
      have hp := insBefore_pairwise ltCount ltCount_asym ltCount_ntrans acc p
        (h.imp (by
          intro a b hab
          simp only [ltCount, decide_eq_false_iff_not]
          omega))
      refine hp.imp ?_
      intro a b hab
      simp only [ltCount, decide_eq_false_iff_not] at hab
      omega
    rw [ih _ hins, filter_insBefore_count acc p c h]
    by_cases hc : p.2 = c <;> simp [hc]

/-- Claim C5 stability characterisation: filtering the sorted ranking by any
fixed count value yields exactly the same subsequence as filtering the
insertion-ordered counts dictionary, i.e. ties keep first-encountered order. -/
theorem filter_sortByCount {α : Type} (c : Nat) (l : List (α × Nat)) :
    (stableSortBy ltCount l).filter (fun x => x.2 == c)
      = l.filter (fun x => x.2 == c) := by
  simpa using filter_sortByCount_aux c l [] (by simp)

/-- The exercise-frequency dictionary of the analytics endpoint:
`topExercises[workout.exercise]++` over the period's workouts, with string keys
in first-encountered order. -/
def exerciseCounts (l : List String) : List (String × Nat) :=
  accumBy id (fun _ => 1) l

/-- The exercise-frequency ranking of the analytics endpoint:
`Object.entries(...).map(...).sort((a, b) => b.count - a.count).slice(0, 10)`. -/
def topExercises (l : List String) : List (String × Nat) :=
  (stableSortBy ltCount (exerciseCounts l)).take 10

theorem sumOn_id_one (l : List String) (e : String) :
    sumOn id (fun _ => 1) l e = l.count e := by
  induction l with
  | nil => simp [sumOn]
  | cons x xs ih =>
    have hstep : sumOn id (fun _ => 1) (x :: xs) e
        = (if x = e then 1 else 0) + sumOn id (fun _ => 1) xs e := by
      simp [sumOn]
    rw [hstep, ih, List.count_cons]
    by_cases h : x = e
    · simp [h]
      omega
    · simp [h]

/-- The ranking input used in the worked example of the claim: counts
`Squat: 3`, `Bench: 5`, `Row: 5`, first encountered in that order. -/
def rankDemoLog : List String :=
  [("Squat"), ("Bench"), ("Row"), ("Squat"), ("Bench"), ("Row"), ("Squat"),
   ("Bench"), ("Row"), ("Bench"), ("Row"), ("Bench"), ("Row")]

/-- Claim C5 — the exercise-frequency ranking counts each distinct exercise
string case-sensitively (the dictionary value at `e` is the number of
occurrences of `e`), is sorted by count descending, breaks ties by
first-encountered order (filtering the sorted list by any count value
reproduces the insertion-ordered dictionary subsequence), truncates to at most
10 entries, and on counts `Squat: 3`, `Bench: 5`, `Row: 5` inserted in that
order yields `[Bench(5), Row(5), Squat(3)]`. -/
theorem topExercises_spec :
    (∀ l : List String, (topExercises l).length ≤ 10) ∧
    (∀ l : List String, (topExercises l).Pairwise (fun a b => b.2 ≤ a.2)) ∧
    (∀ (l : List String) (e : String), getVal (exerciseCounts l) e = l.count e) ∧
    (∀ (l : List String) (c : Nat),
      (stableSortBy ltCount (exerciseCounts l)).filter (fun p => p.2 == c)
        = (exerciseCounts l).filter (fun p => p.2 == c)) ∧
    topExercises rankDemoLog = [(("Bench"), 5), (("Row"), 5), (("Squat"), 3)] := by
  refine ⟨?_, ?_, ?_, ?_, ?_⟩
  · intro l
    simp [topExercises]
  · intro l
    exact (sortByCount_pairwise (exerciseCounts l)).sublist (List.take_sublist _ _)
  · intro l e
    rw [exerciseCounts, getVal_accumBy, sumOn_id_one]
  · intro l c
    exact filter_sortByCount c (exerciseCounts l)
  · decide

/-!
Date-bucketed volume series. The frontend chart (`renderChart` in
`src/frontend/config.js`) builds a dense 7-day dictionary initialised to zero
and only adds records whose date is one of its keys; the analytics endpoint
(`GET /api/analytics` in the full backend) groups the fetched records by date
with an upsert and sorts the resulting entries ascending, producing one entry
per date that actually has records.
-/

/-- Total volume of the records in `ws` dated `d`. -/
def volumeOn (ws : List Workout) (d : Nat) : Nat :=
  sumOn Workout.workoutDate vol ws d

/-- The frontend chart's seven key dates,
`Array.from({length: 7}, (_, i) => today - (6 - i))`. -/
def last7Days (today : Nat) : List Nat :=
  (List.range 7).map (fun i => today - (6 - i))

/-- The chart dictionary initialisation: `volumesByDate[date] = 0` for each key. -/
def initZero (ds : List Nat) : List (Nat × Nat) := ds.map (fun d => (d, 0))

/-- Guarded accumulation of the chart:
`if (volumesByDate.hasOwnProperty(date)) volumesByDate[date] += volume` —
only existing keys are updated, records with other dates are ignored. -/
def addIfPresent (acc : List (Nat × Nat)) (d v : Nat) : List (Nat × Nat) :=
  acc.map (fun p => if p.1 = d then (p.1, p.2 + v) else p)

/-- The populated chart dictionary. -/
def chartDict (today : Nat) (ws : List Workout) : List (Nat × Nat) :=
  ws.foldl (fun acc w => addIfPresent acc w.workoutDate (vol w))
    (initZero (last7Days today))

/-- The rendered chart series, `last7Days.map(date => volumesByDate[date])`,
paired with its date labels. -/
def chartSeries (today : Nat) (ws : List Workout) : List (Nat × Nat) :=
  (last7Days today).map (fun d => (d, getVal (chartDict today ws) d))

/-- The analytics endpoint's period filter: records with
`workout_date >= startDateStr`, where `startDate = today - days`. -/
def inWindow (today days : Nat) (w : Workout) : Bool :=
  decide (today - days ≤ w.workoutDate)

/-- The analytics endpoint's per-date volume dictionary,
`analytics.workoutsByDate[date] += sets * reps * weight`. -/
def volumeByDate (ws : List Workout) : List (Nat × Nat) :=
  accumBy Workout.workoutDate vol ws

/-- Comparator of the final ascending sort,
`(a, b) => a.date.localeCompare(b.date)` on ISO date strings. -/
def ltDate (p q : Nat × Nat) : Bool := decide (p.1 < q.1)

/-- The analytics endpoint's date-bucketed series: filter the period, group by
date, convert to entries and sort ascending by date. -/
def analyticsSeries (today days : Nat) (ws : List Workout) : List (Nat × Nat) :=
  stableSortBy ltDate (volumeByDate (ws.filter (inWindow today days)))

theorem keysOf_initZero (ds : List Nat) : keysOf (initZero ds) = ds := by
  induction ds with
  | nil => rfl
  | cons d rest ih => simp only [initZero, keysOf, List.map_cons] at ih ⊢; rw [ih]

theorem getVal_initZero (ds : List Nat) (e : Nat) : getVal (initZero ds) e = 0 := by
  induction ds with
  | nil => rfl
  | cons d rest ih =>
    simp only [initZero, List.map_cons] at ih ⊢
    by_cases h : d = e
    · rw [getVal_cons_eq h]
    · rw [getVal_cons_ne h]
      exact ih

theorem keysOf_addIfPresent (acc : List (Nat × Nat)) (d v : Nat) :
    keysOf (addIfPresent acc d v) = keysOf acc := by
  induction acc with
  | nil => rfl
  | cons p rest ih =>
    simp only [addIfPresent, keysOf, List.map_cons] at ih ⊢
    by_cases h : p.1 = d
    · simp only [if_pos h]
      rw [ih]
    · simp only [if_neg h]
      rw [ih]

theorem getVal_addIfPresent (acc : List (Nat × Nat)) (d v e : Nat) :
    getVal (addIfPresent acc d v) e
      = getVal acc e + (if d = e ∧ e ∈ keysOf acc then v else 0) := by
  induction acc with
  | nil => simp [addIfPresent, getVal, keysOf]
  | cons p rest ih =>
    by_cases hpd : p.1 = d
    · by_cases hpe : p.1 = e
      · have hde : d = e := by rw [← hpd, hpe]
        have hmem : e ∈ keysOf (p :: rest) := by
          simp [keysOf, hpe.symm]
        simp only [addIfPresent, List.map_cons, if_pos hpd]
        rw [getVal_cons_eq (p := (p.1, p.2 + v)) hpe, getVal_cons_eq hpe,
          if_pos ⟨hde, hmem⟩]
      · have hde : ¬ (d = e) := fun h => hpe (by rw [hpd, h])
        simp only [addIfPresent, List.map_cons, if_pos hpd]
        rw [getVal_cons_ne (p := (p.1, p.2 + v)) hpe, getVal_cons_ne hpe]
        simp only [addIfPresent] at ih
        rw [ih]
        simp [hde]
    · by_cases hpe : p.1 = e
      · have hde : ¬ (d = e) := fun h => hpd (by rw [hpe, ← h])
        simp only [addIfPresent, List.map_cons, if_neg hpd]
        rw [getVal_cons_eq hpe, getVal_cons_eq hpe]
        simp [hde]
      · simp only [addIfPresent, List.map_cons, if_neg hpd]
        rw [getVal_cons_ne hpe, getVal_cons_ne hpe]
        simp only [addIfPresent] at ih
        rw [ih]
        have hk : (e ∈ keysOf (p :: rest)) ↔ (e ∈ keysOf rest) := by
          simp only [keysOf, List.map_cons, List.mem_cons]
          constructor
          · rintro (h | h)
            · exact absurd h.symm hpe
            · exact h
          · exact Or.inr
        by_cases hc : d = e ∧ e ∈ keysOf rest
        · rw [if_pos hc, if_pos ⟨hc.1, hk.mpr hc.2⟩]
        · rw [if_neg hc, if_neg (fun hc2 => hc ⟨hc2.1, hk.mp hc2.2⟩)]

theorem keysOf_chartFold (ws : List Workout) (acc : List (Nat × Nat)) :
    keysOf (ws.foldl (fun a w => addIfPresent a w.workoutDate (vol w)) acc)
      = keysOf acc := by
  induction ws generalizing acc with
  | nil => rfl
  | cons w rest ih =>
    simp only [List.foldl_cons]
    rw [ih, keysOf_addIfPresent]

theorem getVal_chartFold (ws : List Workout) (acc : List (Nat × Nat)) (e : Nat) :
    getVal (ws.foldl (fun a w => addIfPresent a w.workoutDate (vol w)) acc) e
      = getVal acc e + (if e ∈ keysOf acc then volumeOn ws e else 0) := by
  induction ws generalizing acc with
  | nil => simp [volumeOn, sumOn]
  | cons w rest ih =>
    simp only [List.foldl_cons]
    rw [ih, getVal_addIfPresent, keysOf_addIfPresent]
    have hcons : volumeOn (w :: rest) e
        = (if w.workoutDate = e then vol w else 0) + volumeOn rest e := by
      simp [volumeOn, sumOn]
    rw [hcons]
    by_cases hmem : e ∈ keysOf acc
    · by_cases hde : w.workoutDate = e
      · simp [hmem, hde]
        omega
      · simp [hmem, hde]
    · by_cases hde : w.workoutDate = e
      · simp [hmem, hde]
      · simp [hmem, hde]

theorem getVal_chartDict (today : Nat) (ws : List Workout) (d : Nat)
    (hd : d ∈ last7Days today) : getVal (chartDict today ws) d = volumeOn ws d := by
  rw [chartDict, getVal_chartFold, getVal_initZero, keysOf_initZero,
    if_pos hd, Nat.zero_add]

theorem last7Days_eq (today : Nat) (h : 6 ≤ today) :
    last7Days today = (List.range 7).map (fun i => today - 6 + i) := by
  apply List.map_congr_left
  intro i hi
  have hi7 : i < 7 := List.mem_range.mp hi
  omega

/-- Counterexample to claim C1 as stated: for the 7-day window over an empty
record collection the analytics endpoint's date-bucketed series has zero
entries, not seven — days with no records are omitted, not zero-filled. -/
theorem analyticsSeries_claim_refuted :
    analyticsSeries 100 7 [] = [] ∧ (analyticsSeries 100 7 []).length ≠ 7 := by
  constructor
  · rfl
  · decide

/-- Claim C1 (amended) — the frontend 7-day chart series is dense: for
`today ≥ 6` it consists of exactly the seven calendar days
`today - 6, …, today` in chronological order, each exactly once, paired with
the total volume of the records on that day (zero when no record exists, and
records dated outside the window contribute to no bucket).  The backend
analytics series for an `N`-day window is sparse instead: it is strictly
ascending in the date and contains exactly one entry per distinct
`workoutDate` of the in-window records (dates without records are absent),
with the entry's volume the sum over the records of that date. -/
theorem dateSeries_spec :
    (∀ (today : Nat) (ws : List Workout), 6 ≤ today →
      chartSeries today ws
        = (List.range 7).map (fun i => (today - 6 + i, volumeOn ws (today - 6 + i)))) ∧
    (∀ (today days : Nat) (ws : List Workout),
      (analyticsSeries today days ws).Pairwise (fun a b => a.1 < b.1)) ∧
    (∀ (today days : Nat) (ws : List Workout) (d v : Nat),
      (d, v) ∈ analyticsSeries today days ws
        ↔ d ∈ (ws.filter (inWindow today days)).map Workout.workoutDate
          ∧ v = volumeOn (ws.filter (inWindow today days)) d) := by
  refine ⟨?_, ?_, ?_⟩
  · intro today ws h6
    rw [chartSeries, last7Days_eq today h6, List.map_map]
    apply List.map_congr_left
    intro i hi
    have hi7 : i < 7 := List.mem_range.mp hi
    have hmem : today - 6 + i ∈ last7Days today := by
      rw [last7Days_eq today h6]
      exact List.mem_map.mpr ⟨i, hi, rfl⟩
    simp only [Function.comp]
    rw [getVal_chartDict today ws _ hmem]
  · intro today days ws
    have hperm : (analyticsSeries today days ws).Perm
        (volumeByDate (ws.filter (inWindow today days))) :=
      stableSortBy_perm ltDate _
    have hnd : (keysOf (analyticsSeries today days ws)).Nodup := by
      have h1 : (keysOf (volumeByDate (ws.filter (inWindow today days)))).Nodup :=
        nodup_keys_accumBy _ _ _
      exact (hperm.map Prod.fst).nodup_iff.mpr h1
    have hle : (analyticsSeries today days ws).Pairwise
        (fun a b : Nat × Nat => a.1 ≤ b.1) := by
      have h := stableSortBy_pairwise ltDate
        (by intro a b hab; simp only [ltDate, decide_eq_true_eq,
              decide_eq_false_iff_not] at *; omega)
        (by intro a b c h1 h2; simp only [ltDate, decide_eq_false_iff_not] at *; omega)
        (volumeByDate (ws.filter (inWindow today days)))
      refine h.imp ?_
      intro a b hab
      simp only [ltDate, decide_eq_false_iff_not] at hab
      omega
    have hne : (analyticsSeries today days ws).Pairwise
        (fun a b : Nat × Nat => a.1 ≠ b.1) := by
      have := (List.pairwise_map (f := Prod.fst)).mp hnd
      exact this
    refine (hle.and hne).imp ?_
    intro a b hab
    omega
  · intro today days ws d v
    have hperm : (analyticsSeries today days ws).Perm
        (volumeByDate (ws.filter (inWindow today days))) :=
      stableSortBy_perm ltDate _
    rw [hperm.mem_iff]
    have hnd : (keysOf (volumeByDate (ws.filter (inWindow today days)))).Nodup :=
      nodup_keys_accumBy _ _ _
    rw [mem_iff_getVal d v _ hnd]
    rw [volumeByDate]
    rw [mem_keys_accumBy, getVal_accumBy]
    constructor
    · rintro ⟨h1, h2⟩
      exact ⟨h1, h2.symm⟩
    · rintro ⟨h1, h2⟩
      exact ⟨h1, h2.symm⟩

/-- Witness for claim C1 (amended): the dense chart series at `today = 100`
over the empty collection is the seven zero entries for days 94 … 100. -/
theorem dateSeries_spec_witness :
    chartSeries 100 []
      = (List.range 7).map (fun i => (100 - 6 + i, volumeOn [] (100 - 6 + i))) :=
  dateSeries_spec.1 100 [] (by norm_num)

/-!
Ordering of the collection returned to the client. The full backend
(`GET /api/workouts`, `src/unnamed/part_000`) asks the store for
`ORDER BY workout_date DESC, created_at DESC`; the minimal backend
(`GET /api/workouts`, `src/unnamed/part_001`) asks only for
`ORDER BY created_at DESC`.
-/

/-- Strict precedence for `ORDER BY workout_date DESC, created_at DESC`. -/
def ltFull (a b : Workout) : Bool :=
  decide (b.workoutDate < a.workoutDate) ||
    (decide (a.workoutDate = b.workoutDate) && decide (b.createdAt < a.createdAt))

/-- Strict precedence for `ORDER BY created_at DESC`. -/
def ltCreated (a b : Workout) : Bool := decide (b.createdAt < a.createdAt)

/-- Rows as returned by the full backend's workouts query. -/
def fetchOrderFull (rows : List Workout) : List Workout := stableSortBy ltFull rows

/-- Rows as returned by the minimal backend's workouts query. -/
def fetchOrderMinimal (rows : List Workout) : List Workout := stableSortBy ltCreated rows

theorem ltFull_asym (a b : Workout) : ltFull a b = true → ltFull b a = false := by
  simp only [ltFull, Bool.or_eq_true, Bool.and_eq_true, Bool.or_eq_false_iff,
    Bool.and_eq_false_iff, decide_eq_true_eq, decide_eq_false_iff_not]
  omega

theorem ltFull_ntrans (a b c : Workout) :
    ltFull b a = false → ltFull c b = false → ltFull c a = false := by
  simp only [ltFull, Bool.or_eq_false_iff, Bool.and_eq_false_iff,
    decide_eq_false_iff_not]
  omega

theorem ltCreated_asym (a b : Workout) : ltCreated a b = true → ltCreated b a = false := by
  simp only [ltCreated, decide_eq_true_eq, decide_eq_false_iff_not]
  omega

theorem ltCreated_ntrans (a b c : Workout) :
    ltCreated b a = false → ltCreated c b = false → ltCreated c a = false := by
  simp only [ltCreated, decide_eq_false_iff_not]
  omega

/-- First record of the claim C4 counterexample: older workout date, newer
creation timestamp. -/
def rowOldDateNewCreate : Workout :=
  { exercise := ("Bench"), sets := 1, reps := 1, weight := 1,
    workoutDate := 1, createdAt := 10, userId := none }

/-- Second record of the claim C4 counterexample: newer workout date, older
creation timestamp. -/
def rowNewDateOldCreate : Workout :=
  { exercise := ("Squat"), sets := 1, reps := 1, weight := 1,
    workoutDate := 2, createdAt := 5, userId := none }

/-- Counterexample to claim C4 as stated: the minimal backend orders by
`createdAt` descending only, so the collection it hands over is not sorted by
`(workoutDate desc, createdAt desc)` — a record with an older `workoutDate`
but newer `createdAt` comes first. -/
theorem fetchOrderMinimal_claim_refuted :
    fetchOrderMinimal [rowOldDateNewCreate, rowNewDateOldCreate]
      = [rowOldDateNewCreate, rowNewDateOldCreate] ∧
    ¬ ([rowOldDateNewCreate, rowNewDateOldCreate].Pairwise
        (fun a b : Workout => b.workoutDate < a.workoutDate ∨
          (a.workoutDate = b.workoutDate ∧ b.createdAt ≤ a.createdAt))) := by
  constructor
  · rfl
  · intro h
    have hh := (List.pairwise_cons.mp h).1 rowNewDateOldCreate (by simp)
    simp only [rowOldDateNewCreate, rowNewDateOldCreate] at hh
    omega

/-- Claim C4 (amended) — the full backend hands the Aggregation Engine a
permutation of the user's records sorted by `(workoutDate desc, createdAt
desc)`; the minimal backend instead sorts by `createdAt desc` only, so the
claimed composite order is not guaranteed there. -/
theorem fetchOrder_spec :
    (∀ rows : List Workout, (fetchOrderFull rows).Pairwise
      (fun a b => b.workoutDate < a.workoutDate ∨
        (a.workoutDate = b.workoutDate ∧ b.createdAt ≤ a.createdAt))) ∧
    (∀ rows : List Workout, (fetchOrderFull rows).Perm rows) ∧
    (∀ rows : List Workout, (fetchOrderMinimal rows).Pairwise
      (fun a b => b.createdAt ≤ a.createdAt)) ∧
    (∀ rows : List Workout, (fetchOrderMinimal rows).Perm rows) := by
  refine ⟨?_, ?_, ?_, ?_⟩
  · intro rows
    have h := stableSortBy_pairwise ltFull ltFull_asym ltFull_ntrans rows
    refine h.imp ?_
    intro a b hab
    simp only [ltFull, Bool.or_eq_false_iff, Bool.and_eq_false_iff,
      decide_eq_false_iff_not] at hab
    omega
  · intro rows
    exact stableSortBy_perm ltFull rows
  · intro rows
    have h := stableSortBy_pairwise ltCreated ltCreated_asym ltCreated_ntrans rows
    refine h.imp ?_
    intro a b hab
    simp only [ltCreated, decide_eq_false_iff_not] at hab
    omega
  · intro rows
    exact stableSortBy_perm ltCreated rows

/-!
Record validation. The server path (`POST /api/workouts`, full backend) checks
JavaScript truthiness of the five fields and then loose `<= 0` comparisons —
it never checks `isNaN`, so a non-numeric string passes. The client path
(`addWorkout` in `src/unnamed/part_003`) checks emptiness, then `parseInt`
with an `isNaN` test, then positivity.
-/

/-- A JavaScript request-body value: absent, a number, or a string. -/
inductive JValue where
  | undef : JValue
  | num : Int → JValue
  | str : String → JValue
deriving DecidableEq, Repr

/-- JavaScript truthiness of a request-body value (`!v` negated): `undefined`,
`0` and the empty string are falsy. -/
def truthy : JValue → Bool
  | .undef => false
  | .num n => decide (n ≠ 0)
  | .str s => decide (s ≠ "")

/-- Numeric value of a digit list, most significant first. -/
def digitsVal (ds : List Char) : Nat :=
  ds.foldl (fun a c => a * 10 + (c.toNat - 48)) 0

/-- Leading digit run of a character list, or failure when there is none. -/
def parseDigits (cs : List Char) : Option Nat :=
  match cs.takeWhile Char.isDigit with
  | [] => none
  | ds => some (digitsVal ds)

/-- Model of JavaScript `parseInt`: skip leading spaces, optional sign, then
the longest leading digit run; `NaN` (here `none`) when no digit follows. -/
def parseIntJS (s : String) : Option Int :=
  match s.toList.dropWhile (fun c => c = ' ') with
  | '-' :: rest => (parseDigits rest).map (fun n => -(n : Int))
  | '+' :: rest => (parseDigits rest).map (fun n => (n : Int))
  | cs => (parseDigits cs).map (fun n => (n : Int))

/-- Model of JavaScript `Number` coercion on the strings relevant here: the
empty string is `0`, an optionally negated all-digit string is its value, and
anything else is `NaN` (`none`). -/
def numberJS (s : String) : Option Int :=
  if s = "" then some 0
  else
    match s.toList with
    | '-' :: rest =>
        if rest ≠ [] ∧ rest.all Char.isDigit then some (-(digitsVal rest : Int)) else none
    | cs => if cs.all Char.isDigit then some ((digitsVal cs : Int)) else none

/-- Numeric coercion applied by a loose `v <= 0` comparison. -/
def toNumber : JValue → Option Int
  | .undef => none
  | .num n => some n
  | .str s => numberJS s

/-- The server's `sets <= 0` test: a `NaN` coercion compares false. -/
def jsLeZero (v : JValue) : Bool :=
  match toNumber v with
  | some n => decide (n ≤ 0)
  | none => false

/-- Verdict of the server-side validation in `POST /api/workouts`. -/
inductive ServerVerdict where
  | missingFields : ServerVerdict
  | invalidValues : ServerVerdict
  | accepted : ServerVerdict
deriving DecidableEq, Repr

/-- Server-side validation of `POST /api/workouts` (full backend):
`if (!exercise || !sets || !reps || !weight || !workout_date)` then
`MISSING_FIELDS`; `if (sets <= 0 || reps <= 0 || weight <= 0)` then
`INVALID_VALUES`; otherwise the insert proceeds. -/
def serverValidate (exercise sets reps weight workout_date : JValue) : ServerVerdict :=
  if !truthy exercise || !truthy sets || !truthy reps || !truthy weight
      || !truthy workout_date then
    ServerVerdict.missingFields
  else if jsLeZero sets || jsLeZero reps || jsLeZero weight then
    ServerVerdict.invalidValues
  else
    ServerVerdict.accepted

/-- Verdict of the client-side validation in `addWorkout`
(`src/unnamed/part_003`), one constructor per user-visible message. -/
inductive ClientVerdict where
  | fillAllFields : ClientVerdict
  | invalidNumbers : ClientVerdict
  | notPositive : ClientVerdict
  | accepted : ClientVerdict
deriving DecidableEq, Repr

/-- Client-side validation of `addWorkout`: empty-field check
(`Please fill all fields`), then `parseInt` + `isNaN`
(`Please enter valid numbers`), then positivity
(`Values must be greater than 0`). -/
def clientValidate (exercise sets reps weight date : String) : ClientVerdict :=
  if exercise = "" ∨ sets = "" ∨ reps = "" ∨ weight = "" ∨ date = "" then
    ClientVerdict.fillAllFields
  else
    match parseIntJS sets, parseIntJS reps, parseIntJS weight with
    | some s, some r, some w =>
        if s ≤ 0 ∨ r ≤ 0 ∨ w ≤ 0 then ClientVerdict.notPositive
        else ClientVerdict.accepted
    | _, _, _ => ClientVerdict.invalidNumbers

/-- Counterexample to claim C6 as stated: a submission whose `sets` is the
non-numeric string `abc` (numeric coercion yields `NaN`) is ACCEPTED by the
server-side validator — `"abc" <= 0` is false, and no `isNaN` check exists —
so the Record Validator does not reject every coercion failure. -/
theorem serverValidate_claim_refuted :
    serverValidate (.str ("Bench")) (.str ("abc")) (.str ("10")) (.str ("135"))
        (.str ("2024-01-01")) = ServerVerdict.accepted ∧
    toNumber (.str ("abc")) = none := by
  constructor <;> rfl

/-- Claim C6 (amended) — the client validator distinguishes coercion failures
(`Please enter valid numbers`) from non-positive values (`Values must be
greater than 0`), and those verdicts are distinct; but the non-positive
verdict is shared by all three fields (`sets = 0` and `weight = -5` produce
the same message, so the reason is kind-specific, not field-specific).  The
server validator reports non-positive coerced values as `INVALID_VALUES`,
classifies a numeric `0` as `MISSING_FIELDS` (zero is falsy), and does not
itself reject non-numeric strings. -/
theorem validate_spec :
    (∀ ex s r w d : String,
      ¬ (ex = "" ∨ s = "" ∨ r = "" ∨ w = "" ∨ d = "") →
      (parseIntJS s = none ∨ parseIntJS r = none ∨ parseIntJS w = none) →
      clientValidate ex s r w d = ClientVerdict.invalidNumbers) ∧
    (∀ (ex s r w d : String) (sv rv wv : Int),
      ¬ (ex = "" ∨ s = "" ∨ r = "" ∨ w = "" ∨ d = "") →
      parseIntJS s = some sv → parseIntJS r = some rv → parseIntJS w = some wv →
      (sv ≤ 0 ∨ rv ≤ 0 ∨ wv ≤ 0) →
      clientValidate ex s r w d = ClientVerdict.notPositive) ∧
    ClientVerdict.invalidNumbers ≠ ClientVerdict.notPositive ∧
    (clientValidate ("Bench") ("0") ("10") ("135") ("2024-01-01")
        = ClientVerdict.notPositive ∧
      clientValidate ("Bench") ("3") ("10") ("-5") ("2024-01-01")
        = ClientVerdict.notPositive) ∧
    (∀ ex s r w d : JValue,
      truthy ex = true → truthy s = true → truthy r = true → truthy w = true →
      truthy d = true →
      (jsLeZero s = true ∨ jsLeZero r = true ∨ jsLeZero w = true) →
      serverValidate ex s r w d = ServerVerdict.invalidValues) ∧
    (∀ ex r w d : JValue,
      serverValidate ex (.num 0) r w d = ServerVerdict.missingFields) := by
  refine ⟨?_, ?_, by decide, ⟨by rfl, by rfl⟩, ?_, ?_⟩
  · intro ex s r w d hne hfail
    simp only [clientValidate, if_neg hne]
    rcases hs : parseIntJS s with _ | sv <;> rcases hr : parseIntJS r with _ | rv <;>
      rcases hw : parseIntJS w with _ | wv <;> simp_all
  · intro ex s r w d sv rv wv hne hs hr hw hle
    simp only [clientValidate, if_neg hne, hs, hr, hw]
    rw [if_pos hle]
  · intro ex s r w d hex hs hr hw hd hle
    have hcond : (!truthy ex || !truthy s || !truthy r || !truthy w || !truthy d) = false := by
      simp [hex, hs, hr, hw, hd]
    have hcond2 : (jsLeZero s || jsLeZero r || jsLeZero w) = true := by
      rcases hle with h | h | h <;> simp [h]
    simp [serverValidate, hcond, hcond2]
  · intro ex r w d
    have hcond : (!truthy ex || !truthy (.num 0) || !truthy r || !truthy w || !truthy d)
        = true := by
      simp [truthy]
    simp [serverValidate, hcond]

/-- Witness for claim C6 (amended): the client validator at concrete inputs —
non-numeric `sets` gives the coercion-failure verdict, and numeric coercion
failure at the server is the accepted submission shown in the counterexample. -/
theorem validate_spec_witness :
    clientValidate ("Bench") ("abc") ("10") ("135") ("2024-01-01")
        = ClientVerdict.invalidNumbers ∧
    clientValidate ("Bench") ("0") ("10") ("135") ("2024-01-01")
        = ClientVerdict.notPositive ∧
    serverValidate (.str ("Bench")) (.num (-5)) (.num 3) (.num 10) (.str ("x"))
        = ServerVerdict.invalidValues :=
  ⟨validate_spec.1 ("Bench") ("abc") ("10") ("135") ("2024-01-01")
      (by simp) (Or.inl (by rfl)),
   validate_spec.2.2.2.1.1,
   validate_spec.2.2.2.2.1 (.str ("Bench")) (.num (-5)) (.num 3) (.num 10) (.str ("x"))
      (by rfl) (by rfl) (by rfl) (by rfl) (by rfl) (Or.inl (by rfl))⟩

/-!
Backup import. The client (`importData` in `src/frontend/config.js`) maps each
backup entry through repairing defaults (`parseInt(x) || 1`, date fallback to
today) and posts the whole array to `POST /api/workouts/batch`, which inserts
it into the store in one call; the store's constraints (`NOT NULL` exercise,
`CHECK (sets > 0)` etc. from the setup SQL) apply per row and a multi-row
insert is all-or-nothing.
-/

/-- One entry of an imported backup file, fields possibly absent. -/
structure RawEntry where
  exercise : Option String
  sets : JValue
  reps : JValue
  weight : JValue
  workout_date : Option String
  date : Option String
  notes : Option String
deriving DecidableEq, Repr

/-- JavaScript `parseInt(x)` on a backup field that may be absent, numeric or a string. -/
def jsParseIntVal : JValue → Option Int
  | .undef => none
  | .num n => some n
  | .str s => parseIntJS s

/-- JavaScript `parseInt(x) || 1`: both `NaN` and `0` are falsy and fall back to `1`. -/
def orOne (o : Option Int) : Int :=
  match o with
  | none => 1
  | some n => if n = 0 then 1 else n

/-- JavaScript `a || b` for a possibly absent string, the empty string being falsy. -/
def jsOrStr (a : Option String) (b : String) : String :=
  match a with
  | none => b
  | some s => if s = "" then b else s

/-- A workout object as sent to the batch endpoint. -/
structure PreparedRow where
  exercise : Option String
  sets : Int
  reps : Int
  weight : Int
  workout_date : String
  notes : Option String
deriving DecidableEq, Repr

/-- The client-side mapping of `importData`:
`sets: parseInt(workout.sets) || 1` (same for reps and weight),
`workout_date: workout.workout_date || workout.date || today`,
`notes: workout.notes || null`. -/
def prepareImport (today : String) (e : RawEntry) : PreparedRow :=
  { exercise := e.exercise
    sets := orOne (jsParseIntVal e.sets)
    reps := orOne (jsParseIntVal e.reps)
    weight := orOne (jsParseIntVal e.weight)
    workout_date := jsOrStr e.workout_date (jsOrStr e.date today)
    notes :=
      match e.notes with
      | none => none
      | some s => if s = "" then none else some s }

/-- Store-level validity of one inserted row, from the `workouts` table
definition: `exercise NOT NULL`, `CHECK (sets > 0)`, `CHECK (reps > 0)`,
`CHECK (weight > 0)`. -/
def rowOk (p : PreparedRow) : Bool :=
  p.exercise.isSome && decide (0 < p.sets) && decide (0 < p.reps)
    && decide (0 < p.weight)

/-- Endpoint `POST /api/workouts/batch` followed by the store's single multi-row
insert: an empty array is rejected, a batch with any constraint-violating row
fails as a whole (no partial apply), otherwise all rows are appended.
Returns the resulting store and whether the import succeeded. -/
def batchInsert (store : List PreparedRow) (batch : List PreparedRow) :
    List PreparedRow × Bool :=
  if batch.isEmpty then (store, false)
  else if batch.all rowOk then (store ++ batch, true)
  else (store, false)

/-- The whole import operation: `none` models a backup whose `workouts` field
is missing or not an array (client throws `Invalid backup file format`);
otherwise the prepared batch is posted. -/
def importApply (store : List PreparedRow) (today : String)
    (backup : Option (List RawEntry)) : List PreparedRow × Bool :=
  match backup with
  | none => (store, false)
  | some entries => batchInsert store (entries.map (prepareImport today))

/-- A well-formed backup entry. -/
def entryComplete : RawEntry :=
  { exercise := some ("Bench Press"), sets := .num 3, reps := .num 10,
    weight := .num 135, workout_date := some ("2024-01-01"), date := none,
    notes := none }

/-- The malformed backup entry of the claim: its `sets` field is missing. -/
def entrySetsMissing : RawEntry :=
  { exercise := some ("Squat"), sets := .undef, reps := .num 5,
    weight := .num 200, workout_date := some ("2024-01-02"), date := none,
    notes := none }

/-- A backup of 12 workouts, one of which is missing its `sets` field. -/
def backupTwelve : List RawEntry :=
  List.replicate 11 entryComplete ++ [entrySetsMissing]

/-- An entry whose `exercise` field is missing — the one defect the client
mapping cannot repair, so the store rejects the batch. -/
def entryNoExercise : RawEntry :=
  { exercise := none, sets := .num 3, reps := .num 10, weight := .num 135,
    workout_date := some ("2024-01-03"), date := none, notes := none }

/-- Counterexample to claim C2 as stated: importing a backup of 12 workouts in
which one entry is missing its `sets` field succeeds — the client maps the
missing field to `1` (`parseInt(undefined) || 1`), all 12 records are added,
and nothing is rejected. -/
theorem importData_claim_refuted :
    (importApply [] ("2024-06-01") (some backupTwelve)).2 = true ∧
    (importApply [] ("2024-06-01") (some backupTwelve)).1.length = 12 ∧
    (prepareImport ("2024-06-01") entrySetsMissing).sets = 1 := by
  refine ⟨by decide, by decide, by decide⟩

/-- Claim C2 (amended) — the client import silently repairs a missing (or
zero, or unparseable) `sets`, `reps` or `weight` to `1`, so a backup whose
only defect is a missing `sets` field is imported in full rather than
rejected.  The no-partial-apply half of the claim does hold: a backup whose
`workouts` field is malformed is rejected with the store unchanged, and a
prepared batch containing any row that still violates a store constraint
(e.g. a missing exercise) fails as a whole with zero records added; a fully
valid batch is appended in its entirety. -/
theorem importData_spec :
    (∀ (today : String) (e : RawEntry), e.sets = JValue.undef →
      (prepareImport today e).sets = 1) ∧
    (∀ (store : List PreparedRow) (today : String),
      importApply store today none = (store, false)) ∧
    (∀ (store : List PreparedRow) (today : String) (entries : List RawEntry),
      ¬ ((entries.map (prepareImport today)).all rowOk = true) →
      importApply store today (some entries) = (store, false)) ∧
    (∀ (store : List PreparedRow) (today : String) (entries : List RawEntry),
      entries ≠ [] →
      (entries.map (prepareImport today)).all rowOk = true →
      importApply store today (some entries)
        = (store ++ entries.map (prepareImport today), true)) := by
  refine ⟨?_, ?_, ?_, ?_⟩
  · intro today e hs
    simp [prepareImport, hs, jsParseIntVal, orOne]
  · intro store today
    rfl
  · intro store today entries hbad
    by_cases hempty : (entries.map (prepareImport today)).isEmpty
    · simp [importApply, batchInsert, hempty]
    · simp [importApply, batchInsert, hempty, hbad]
  · intro store today entries hne hok
    have hempty : (entries.map (prepareImport today)).isEmpty = false := by
      simp [List.isEmpty_iff, hne]
    simp [importApply, batchInsert, hempty, hok]

/-- Witness for claim C2 (amended), at concrete inputs: the missing `sets` of
the malformed demo entry is repaired to `1`, and a one-entry batch whose
exercise is missing is rejected with the store left empty. -/
theorem importData_spec_witness :
    (prepareImport ("2024-06-01") entrySetsMissing).sets = 1 ∧
    importApply [] ("2024-06-01") (some [entryNoExercise]) = ([], false) :=
  ⟨importData_spec.1 ("2024-06-01") entrySetsMissing (by rfl),
   importData_spec.2.2.1 [] ("2024-06-01") [entryNoExercise] (by decide)⟩

/-!
Optimistic local add with asynchronous remote push (`addWorkout` and
`saveToBackend` in `src/unnamed/part_003`). The record is prepended to the
in-memory list, persisted to the local cache and the success message is shown
BEFORE the push is attempted; `saveToBackend` catches every failure and only
writes to the console.
-/

/-- Outcome of the remote push attempted by `saveToBackend`. -/
inductive PushResult where
  | pushOk : PushResult
  | httpFail (status : Nat) : PushResult
  | netFail : PushResult
deriving DecidableEq, Repr

/-- User-visible notification messages of the add path. `addFailed` is the
`Failed to add workout` message of `addWorkout`'s catch branch (reachable only
from local DOM errors, never from the push). -/
inductive UiMsg where
  | addedOk : UiMsg
  | addFailed : UiMsg
  | loginFirst : UiMsg
deriving DecidableEq, Repr

/-- User-visible messages produced by `saveToBackend`: the success branch,
the non-OK-response branch and the catch branch each only `console.log` —
no `showMessage` call and nothing rethrown. -/
def saveToBackendMsgs : PushResult → List UiMsg
  | .pushOk => []
  | .httpFail _ => []
  | .netFail => []

/-- The tracker state touched by the add path: the in-memory list, the
persisted local-cache copy and the notifications shown so far. -/
structure TrackerP3 where
  workouts : List Workout
  stored : List Workout
  uiMsgs : List UiMsg
deriving DecidableEq, Repr

/-- The validated-add path of `addWorkout`: unshift the new record, write the
list to local storage, show `Workout added successfully!`, then await
`saveToBackend` (whose outcome contributes no UI message and no rollback). -/
def addWorkoutP3 (st : TrackerP3) (w : Workout) (push : PushResult) : TrackerP3 :=
  let ws := w :: st.workouts
  { workouts := ws
    stored := ws
    uiMsgs := st.uiMsgs ++ [UiMsg.addedOk] ++ saveToBackendMsgs push }

/-- The record used in the claim C3 counterexample. -/
def benchRecord : Workout :=
  { exercise := ("Bench Press"), sets := 3, reps := 10, weight := 135,
    workoutDate := 50, createdAt := 1000, userId := some ("u1") }

/-- Counterexample to claim C3 as stated: after a failed push the record is
still in the local cache (first half of the claim), but the only notification
shown is the success message — no failure of any kind is surfaced to the
caller, contradicting the claim's second half. -/
theorem addWorkout_claim_refuted :
    (addWorkoutP3 ⟨[], [], []⟩ benchRecord PushResult.netFail).stored
        = [benchRecord] ∧
    (addWorkoutP3 ⟨[], [], []⟩ benchRecord PushResult.netFail).uiMsgs
        = [UiMsg.addedOk] ∧
    UiMsg.addFailed ∉ (addWorkoutP3 ⟨[], [], []⟩ benchRecord PushResult.netFail).uiMsgs := by
  refine ⟨by rfl, by rfl, by decide⟩

/-- Claim C3 (amended) — whatever the push outcome (including every failure),
the optimistically written record stays at the head of both the in-memory
list and the persisted cache exactly as written; but the push failure is
swallowed (logged to the console only): the caller sees exactly the success
message and no error. -/
theorem addWorkout_spec :
    ∀ (st : TrackerP3) (w : Workout) (push : PushResult),
      (addWorkoutP3 st w push).workouts = w :: st.workouts ∧
      (addWorkoutP3 st w push).stored = w :: st.workouts ∧
      (addWorkoutP3 st w push).uiMsgs = st.uiMsgs ++ [UiMsg.addedOk] := by
  intro st w push
  refine ⟨rfl, rfl, ?_⟩
  cases push <;> simp [addWorkoutP3, saveToBackendMsgs]

/-!
Loading the local cache (`loadWorkouts` in `src/script.js`):
`try { const saved = localStorage.getItem(key); return saved ?
JSON.parse(saved) : [] } catch { return [] }`.
-/

/-- A JSON value as produced by `JSON.parse`. -/
inductive JsonV where
  | null : JsonV
  | bool (b : Bool) : JsonV
  | num (n : Int) : JsonV
  | str (s : String) : JsonV
  | arr (elems : List JsonV) : JsonV

/-- Whether a JSON value is an array. -/
def JsonV.isArr : JsonV → Bool
  | .arr _ => true
  | _ => false

/-- Outcome of `JSON.parse`: a thrown `SyntaxError` or a value. -/
inductive ParseOutcome where
  | fail : ParseOutcome
  | val (v : JsonV) : ParseOutcome

/-- Model of `loadWorkouts` over an abstract `JSON.parse`: absent key or empty string
(falsy) yields `[]`, a parse error is caught and yields `[]`, and otherwise
the parsed value is returned unchanged, whatever its type. -/
def loadWorkoutsLS (parse : String → ParseOutcome) (stored : Option String) : JsonV :=
  match stored with
  | none => JsonV.arr []
  | some s =>
      if s = "" then JsonV.arr []
      else
        match parse s with
        | .fail => JsonV.arr []
        | .val v => v

/-- Model of the standard `JSON.parse` restricted to unsigned integer
literals: an all-digit string is the corresponding number, anything else is
treated as a parse failure in this restricted model. -/
def parseIntLiteral (s : String) : ParseOutcome :=
  if s ≠ "" ∧ s.toList.all Char.isDigit then
    ParseOutcome.val (JsonV.num (digitsVal s.toList))
  else ParseOutcome.fail

/-- Counterexample to claim C9 as stated: with the stored value `42` — valid
JSON that is not an array — `loadWorkouts` returns the number `42`, not a
list, so the tracker does not always initialise with a well-formed workout
collection. -/
theorem loadWorkouts_claim_refuted :
    loadWorkoutsLS parseIntLiteral (some ("42")) = JsonV.num 42 ∧
    (loadWorkoutsLS parseIntLiteral (some ("42"))).isArr = false := by
  constructor <;> rfl

/-- Claim C9 (amended) — `loadWorkouts` is total and never throws: an absent
key, an empty stored string and an unparsable stored value all yield the
empty list; but a stored value that parses as non-array JSON is returned
unchanged, so the result is not always a list. -/
theorem loadWorkouts_spec :
    (∀ parse : String → ParseOutcome, loadWorkoutsLS parse none = JsonV.arr []) ∧
    (∀ parse : String → ParseOutcome, loadWorkoutsLS parse (some ("")) = JsonV.arr []) ∧
    (∀ (parse : String → ParseOutcome) (s : String), parse s = ParseOutcome.fail →
      loadWorkoutsLS parse (some s) = JsonV.arr []) ∧
    (∀ (parse : String → ParseOutcome) (s : String) (v : JsonV), s ≠ "" →
      parse s = ParseOutcome.val v → loadWorkoutsLS parse (some s) = v) := by
  refine ⟨fun _ => rfl, fun _ => rfl, ?_, ?_⟩
  · intro parse s hf
    by_cases h : s = ""
    · simp [loadWorkoutsLS, h]
    · simp [loadWorkoutsLS, h, hf]
  · intro parse s v hne hv
    simp [loadWorkoutsLS, hne, hv]

/-- Witness for claim C9 (amended): an unparsable stored string yields the
empty list, and the stored integer literal `42` is passed through. -/
theorem loadWorkouts_spec_witness :
    loadWorkoutsLS parseIntLiteral (some ("not json")) = JsonV.arr [] ∧
    loadWorkoutsLS parseIntLiteral (some ("42")) = JsonV.num 42 :=
  ⟨loadWorkouts_spec.2.2.1 parseIntLiteral ("not json") (by rfl),
   loadWorkouts_spec.2.2.2 parseIntLiteral ("42") (JsonV.num 42) (by decide) (by rfl)⟩

/-!
Bulk clear (`clearAll` in `src/unnamed/part_003`): on the confirmed path the
tracker keeps exactly the records whose `user_id` differs from the current
user's id and writes that list back to the cache; when the current user owns
no records (and no untagged records exist) it returns early without touching
the cache.
-/

/-- The current user's records as computed by `clearAll` (and the display
paths): records without a `user_id`, or tagged with the current id; empty when
nobody is logged in. -/
def userWorkoutsOf (ws : List Workout) (cu : Option String) : List Workout :=
  match cu with
  | none => []
  | some cid => ws.filter (fun w => w.userId.isNone || decide (w.userId = some cid))

/-- The confirmed `clearAll` operation:
`this.workouts = this.workouts.filter(w => w.user_id !== this.currentUser?.id)`,
behind the `userWorkouts.length === 0` early return. -/
def clearAllP3 (ws : List Workout) (cu : Option String) : List Workout :=
  if (userWorkoutsOf ws cu).isEmpty then ws
  else ws.filter (fun w => decide (w.userId ≠ cu))

/-- Claim C10 — for every cache state and authenticated user, the bulk clear
keeps exactly the records whose `user_id` differs from the current user's id,
unchanged and in order (the result is literally the filtered cache), and a
record survives the clear iff it was present and not owned by that user. -/
theorem clearAll_spec :
    ∀ (ws : List Workout) (cid : String),
      clearAllP3 ws (some cid) = ws.filter (fun w => decide (w.userId ≠ some cid)) ∧
      (∀ w : Workout,
        w ∈ clearAllP3 ws (some cid) ↔ (w ∈ ws ∧ w.userId ≠ some cid)) := by
  intro ws cid
  have hmain : clearAllP3 ws (some cid)
      = ws.filter (fun w => decide (w.userId ≠ some cid)) := by
    by_cases hempty : (userWorkoutsOf ws (some cid)).isEmpty
    · have hnil : userWorkoutsOf ws (some cid) = [] := List.isEmpty_iff.mp hempty
      have hall : ∀ w ∈ ws, w.userId ≠ some cid := by
        intro w hw hcontra
        have hmem : w ∈ userWorkoutsOf ws (some cid) := by
          simp only [userWorkoutsOf]
          refine List.mem_filter.mpr ⟨hw, ?_⟩
          simp [hcontra]
        rw [hnil] at hmem
        exact List.not_mem_nil w hmem
      have hfil : ws.filter (fun w => decide (w.userId ≠ some cid)) = ws := by
        apply List.filter_eq_self.mpr
        intro w hw
        simp [hall w hw]
      rw [clearAllP3, if_pos hempty, hfil]
    · rw [clearAllP3, if_neg hempty]
  refine ⟨hmain, ?_⟩
  intro w
  rw [hmain]
  rw [List.mem_filter]
  simp
